import Mathlib

/-!
Verification of the Pilot coding agent (github.com/lowkaihon/cli-coding-agent).

Each section shallowly embeds one part of the Go source and proves the
corresponding specification claims about it.  Go slices become `List`,
Go maps become association lists or explicit functions, `[]byte` contents
become `String`, and the file system becomes an explicit `Path → Option Bytes`
map threaded through the operations.
-/

namespace Pilot

/-! ## Path guard (`tools.ValidatePath`, src/unnamed/part_002)

Go paths are slash-separated strings.  We represent a path by its absolute
flag together with its list of components (the substrings between slashes;
empty components are kept, `filepath.Clean` removes them exactly as Go does).
`workDir` in the program is an absolute path, so the embedding models
`filepath.Clean`, `filepath.Join` and `filepath.Rel` on absolute bases.
-/

/-- Go `strings.HasPrefix p s` on component strings, via the character lists. -/
def strHasPre (p s : String) : Bool :=
  p.data.isPrefixOf s.data

/-- One step of Go `filepath.Clean` on a rooted path: `""` and `"."` components
are dropped, `".."` pops the last component (at the root it is dropped), any
other component is pushed. -/
def cleanStep (acc : List String) (c : String) : List String :=
  if c = "" ∨ c = "." then acc
  else if c = ".." then acc.dropLast
  else acc ++ [c]

/-- Go `filepath.Clean` on the components of a rooted (absolute) path. -/
def cleanAbs (comps : List String) : List String :=
  comps.foldl cleanStep []

/-- A component is one that `filepath.Clean` leaves alone. -/
def goodComp (c : String) : Prop :=
  c ≠ "" ∧ c ≠ "." ∧ c ≠ ".."

instance (c : String) : Decidable (goodComp c) := by
  unfold goodComp; infer_instance

/-- Component list of Go `filepath.Rel base targ` for cleaned absolute
`base`/`targ`: strip the common prefix, then one `".."` per remaining base
component followed by the remaining target components.  (For two absolute
paths Go's `Rel` never returns an error.) -/
def relComps : List String → List String → List String
  | [], t => t
  | b :: bs, [] => List.replicate (b :: bs).length ".."
  | b :: bs, t :: ts =>
    if b = t then relComps bs ts
    else List.replicate (b :: bs).length ".." ++ (t :: ts)

/-- Go `filepath.Rel base targ` (components), for absolute base and target:
`Rel` cleans both of its arguments first. -/
def goRel (base targ : List String) : List String :=
  relComps (cleanAbs base) (cleanAbs targ)

/-- Go `strings.HasPrefix(rel, "..")` where `rel` is the slash-joined string
form of a cleaned relative component list (the empty list prints as `"."`).
Components never contain a slash, so the string starts with `".."` exactly
when its first component does. -/
def relStartsDotDot : List String → Bool
  | [] => false
  | c :: _ => strHasPre ".." c

/-- `tools.ValidatePath workDir requestedPath` from src/unnamed/part_002.
`workDir` is the (absolute) working directory's component list; the requested
path is given by its absolute flag and components.  Returns the component list
of the resolved absolute path, or `none` for the Go error return. -/
def ValidatePath (workDir : List String) (reqAbs : Bool) (reqComps : List String) :
    Option (List String) :=
  if reqAbs then
    -- absolute branch: check Rel(workDir, requested), return Clean(requested)
    if relStartsDotDot (goRel workDir reqComps) then none
    else some (cleanAbs reqComps)
  else
    -- relative branch: absPath := Clean(Join(workDir, requested))
    let absPath := cleanAbs (workDir ++ reqComps)
    if relStartsDotDot (goRel workDir absPath) then none
    else some absPath

/-! Lemmas about `cleanAbs`. -/

theorem cleanStep_good (acc : List String) (c : String) (h : goodComp c) :
    cleanStep acc c = acc ++ [c] := by
  obtain ⟨h1, h2, h3⟩ := h
  simp [cleanStep, h1, h2, h3]

theorem cleanAbs_aux_good (l : List String) (acc : List String)
    (h : ∀ c ∈ l, goodComp c) : l.foldl cleanStep acc = acc ++ l := by
  induction l generalizing acc with
  | nil => simp
  | cons c cs ih =>
    have hc : goodComp c := h c (List.mem_cons_self _ _)
    have hcs : ∀ x ∈ cs, goodComp x := fun x hx => h x (List.mem_cons_of_mem _ hx)
    simp only [List.foldl_cons, cleanStep_good acc c hc, ih _ hcs, List.append_assoc,
      List.singleton_append]

theorem cleanAbs_good_mem (l : List String) :
    ∀ c ∈ cleanAbs l, goodComp c := by
  unfold cleanAbs
  suffices h : ∀ acc, (∀ c ∈ acc, goodComp c) → ∀ c ∈ l.foldl cleanStep acc, goodComp c by
    exact h [] (by simp)
  induction l with
  | nil => intro acc hacc; simpa using hacc
  | cons x xs ih =>
    intro acc hacc
    simp only [List.foldl_cons]
    apply ih
    unfold cleanStep
    by_cases h1 : x = "" ∨ x = "."
    · simpa [h1] using hacc
    · by_cases h2 : x = ".."
      · simp only [h1, if_false, h2, if_true]
        intro c hc
        exact hacc c (List.dropLast_subset _ hc)
      · simp only [h1, if_false, h2, if_true]
        intro c hc
        rcases List.mem_append.mp hc with h | h
        · exact hacc c h
        · rcases List.mem_singleton.mp h with rfl
          push_neg at h1
          exact ⟨h1.1, h1.2, h2⟩

/-- `filepath.Clean` is idempotent (on rooted paths). -/
theorem cleanAbs_idem (l : List String) : cleanAbs (cleanAbs l) = cleanAbs l := by
  have h := cleanAbs_aux_good (cleanAbs l) [] (cleanAbs_good_mem l)
  simpa [cleanAbs] using h

/-- `Rel` only depends on its target through `Clean`. -/
theorem goRel_cleanAbs (base targ : List String) :
    goRel base (cleanAbs targ) = goRel base targ := by
  unfold goRel
  rw [cleanAbs_idem]

/-- If the cleaned base is not a component-prefix of the cleaned target, the
relative path starts with `".."`. -/
theorem relStartsDotDot_of_not_prefix (b t : List String)
    (h : ¬ b.IsPrefix t) : relStartsDotDot (relComps b t) = true := by
  induction b generalizing t with
  | nil => exact absurd (List.nil_prefix) h
  | cons x xs ih =>
    cases t with
    | nil =>
      simp [relComps, relStartsDotDot, List.replicate, strHasPre]
    | cons y ys =>
      by_cases hxy : x = y
      · subst hxy
        have h' : ¬ xs.IsPrefix ys := fun hp => h (List.cons_prefix_cons.mpr ⟨rfl, hp⟩)
        simpa [relComps] using ih ys h'
      · simp [relComps, hxy, relStartsDotDot, List.replicate, strHasPre]

/-- C1 (amended): whenever `ValidatePath` succeeds, the returned absolute path's
relative form w.r.t. `work_dir` does not begin with `".."`; every absolute path
whose cleaned form is not inside `work_dir` is rejected; and every relative
path whose cleaned join with `work_dir` leaves `work_dir` is rejected.  (The
check is purely lexical: it resolves no symlinks, and a `../…` path whose
normalization re-enters `work_dir` is accepted — see the counterexample.) -/
theorem validatePath_confinement (workDir : List String) (reqAbs : Bool)
    (reqComps : List String) :
    (∀ r, ValidatePath workDir reqAbs reqComps = some r →
      relStartsDotDot (goRel workDir r) = false)
    ∧ (reqAbs = true → ¬ (cleanAbs workDir).IsPrefix (cleanAbs reqComps) →
      ValidatePath workDir reqAbs reqComps = none)
    ∧ (reqAbs = false →
      ¬ (cleanAbs workDir).IsPrefix (cleanAbs (workDir ++ reqComps)) →
      ValidatePath workDir reqAbs reqComps = none) := by
  refine ⟨?_, ?_, ?_⟩
  · intro r hr
    cases reqAbs with
    | true =>
      simp only [ValidatePath, if_true] at hr
      by_cases hc : relStartsDotDot (goRel workDir reqComps) = true
      · simp [hc] at hr
      · simp only [hc, Bool.false_eq_true, if_false, Option.some.injEq] at hr
        subst hr
        rw [goRel_cleanAbs]
        exact Bool.not_eq_true _ ▸ hc
    | false =>
      simp only [ValidatePath, Bool.false_eq_true, if_false] at hr
      by_cases hc : relStartsDotDot (goRel workDir (cleanAbs (workDir ++ reqComps))) = true
      · simp [hc] at hr
      · simp only [hc, Bool.false_eq_true, if_false, Option.some.injEq] at hr
        subst hr
        exact Bool.not_eq_true _ ▸ hc
  · intro habs hout
    subst habs
    have h := relStartsDotDot_of_not_prefix _ _ hout
    simp [ValidatePath, goRel, h]
  · intro habs hout
    subst habs
    have h : relStartsDotDot (goRel workDir (cleanAbs (workDir ++ reqComps))) = true := by
      rw [goRel_cleanAbs]
      exact relStartsDotDot_of_not_prefix _ _ hout
    simp [ValidatePath, h]

/-- C1 (counterexample): the claim "ValidatePath rejects every path of the form
`../…`" is false.  With `work_dir = /a/b` the relative request `../b/file`
normalizes back inside the working directory (`/a/b/../b/file → /a/b/file`)
and is accepted, not rejected. -/
theorem validatePath_dotdot_accepted :
    ValidatePath ["a", "b"] false ["..", "b", "file"] = some ["a", "b", "file"] := by
  decide

/-- C1 (witness): the amended confinement theorem at concrete inputs:
`/a/b` + relative `file` succeeds with a relative form not starting in `".."`;
absolute `/etc/passwd` is rejected; relative `../../x` is rejected. -/
theorem validatePath_confinement_witness :
    relStartsDotDot (goRel ["a", "b"] ["a", "b", "file"]) = false
    ∧ ValidatePath ["a", "b"] true ["etc", "passwd"] = none
    ∧ ValidatePath ["a", "b"] false ["..", "..", "x"] = none :=
  ⟨(validatePath_confinement ["a", "b"] false ["file"]).1 ["a", "b", "file"] (by decide),
   (validatePath_confinement ["a", "b"] true ["etc", "passwd"]).2.1 rfl (by decide),
   (validatePath_confinement ["a", "b"] false ["..", "..", "x"]).2.2 rfl (by decide)⟩

/-! ## Atomic writes (`tools.AtomicWrite`, src/unnamed/part_002)

The file system is a map from paths to optional byte contents.  `AtomicWrite`
creates a fresh temp file next to the target, writes, closes, chmods, and
renames it over the target; a deferred cleanup removes the temp file unless
the rename succeeded.  Failure of each syscall is injected through an oracle
of booleans (one per step).  File permission bits are not modelled: `chmod`
can fail but its success changes no content. -/

abbrev Path := String
abbrev Bytes := String
abbrev Disk := Path → Option Bytes

/-- Point update of the file system: `none` removes the file. -/
def setDisk (d : Disk) (p : Path) (v : Option Bytes) : Disk :=
  fun q => if q = p then v else d q

/-- Which of `AtomicWrite`'s five syscalls succeed. -/
structure AwOracle where
  createOk : Bool
  writeOk : Bool
  closeOk : Bool
  chmodOk : Bool
  renameOk : Bool

/-- `tools.AtomicWrite targetPath content perm` from src/unnamed/part_002.
`tmpName` is the fresh name picked by `os.CreateTemp`.  Returns the Go error
result together with the file system after the call (including the deferred
`os.Remove(tmpPath)`, which is skipped only after a successful rename). -/
def AtomicWrite (d : Disk) (target : Path) (content : Bytes) (tmpName : Path)
    (orc : AwOracle) : Except String Unit × Disk :=
  if ¬ orc.createOk then (.error "create temp file", d)
  else
    -- os.CreateTemp made an empty temp file
    let d1 := setDisk d tmpName (some "")
    if ¬ orc.writeOk then (.error "write temp file", setDisk d1 tmpName none)
    else
      let d2 := setDisk d1 tmpName (some content)
      if ¬ orc.closeOk then (.error "close temp file", setDisk d2 tmpName none)
      else if ¬ orc.chmodOk then (.error "chmod temp file", setDisk d2 tmpName none)
      else if ¬ orc.renameOk then (.error "rename temp file", setDisk d2 tmpName none)
      else (.ok (), setDisk (setDisk d2 tmpName none) target (some content))

/-- C6: if `AtomicWrite` succeeds, the target holds exactly the written bytes
and no temp file remains; if any step before the final rename fails, an error
is propagated, the temp file is removed, and the target's content equals its
pre-call value.  (`tmpName` is the fresh name generated by `os.CreateTemp`,
hence distinct from the target and not previously on disk.) -/
theorem atomicWrite_spec (d : Disk) (target content tmpName : Path) (orc : AwOracle)
    (hne : tmpName ≠ target) (hfresh : d tmpName = none) :
    (orc.createOk = true → orc.writeOk = true → orc.closeOk = true →
      orc.chmodOk = true → orc.renameOk = true →
      (AtomicWrite d target content tmpName orc).1 = .ok ()
      ∧ (AtomicWrite d target content tmpName orc).2 target = some content
      ∧ (AtomicWrite d target content tmpName orc).2 tmpName = none)
    ∧ ((orc.createOk = false ∨ orc.writeOk = false ∨ orc.closeOk = false ∨
        orc.chmodOk = false) →
      (∃ e, (AtomicWrite d target content tmpName orc).1 = .error e)
      ∧ (AtomicWrite d target content tmpName orc).2 target = d target
      ∧ (AtomicWrite d target content tmpName orc).2 tmpName = none) := by
  have hne' : target ≠ tmpName := Ne.symm hne
  obtain ⟨c1, c2, c3, c4, c5⟩ := orc
  constructor
  · rintro rfl rfl rfl rfl rfl
    refine ⟨rfl, ?_, ?_⟩ <;> simp [AtomicWrite, setDisk, hne, hne']
  · intro hfail
    cases c1 <;> cases c2 <;> cases c3 <;> cases c4 <;>
      first
      | (refine ⟨⟨_, rfl⟩, ?_, ?_⟩ <;> simp [AtomicWrite, setDisk, hne, hne', hfresh])
      | (exfalso; rcases hfail with h | h | h | h <;> simp at h)

/-- C6 (witness): `AtomicWrite` on an empty disk: with every step succeeding
the target holds the bytes and the temp file is gone; with a failing write
step the error propagates and the target is untouched. -/
theorem atomicWrite_spec_witness :
    ((AtomicWrite (fun _ => none) "a.txt" "hi" ".pilot-1" ⟨true, true, true, true, true⟩).1
        = .ok ()
      ∧ (AtomicWrite (fun _ => none) "a.txt" "hi" ".pilot-1"
          ⟨true, true, true, true, true⟩).2 "a.txt" = some "hi"
      ∧ (AtomicWrite (fun _ => none) "a.txt" "hi" ".pilot-1"
          ⟨true, true, true, true, true⟩).2 ".pilot-1" = none)
    ∧ ((∃ e, (AtomicWrite (fun _ => none) "a.txt" "hi" ".pilot-1"
          ⟨true, false, true, true, true⟩).1 = .error e)
      ∧ (AtomicWrite (fun _ => none) "a.txt" "hi" ".pilot-1"
          ⟨true, false, true, true, true⟩).2 "a.txt" = (fun (_ : Path) => none) "a.txt"
      ∧ (AtomicWrite (fun _ => none) "a.txt" "hi" ".pilot-1"
          ⟨true, false, true, true, true⟩).2 ".pilot-1" = none) :=
  ⟨(atomicWrite_spec (fun _ => none) "a.txt" "hi" ".pilot-1" ⟨true, true, true, true, true⟩
      (by decide) rfl).1 rfl rfl rfl rfl rfl,
   (atomicWrite_spec (fun _ => none) "a.txt" "hi" ".pilot-1" ⟨true, false, true, true, true⟩
      (by decide) rfl).2 (Or.inr (Or.inl rfl))⟩

/-! ## Task list (`agent.UpdateTask`, src/agent/task.go)

`UpdateTask` validates the status string, then scans the task slice for the
first task with the given id, sets its status and `UpdatedAt`, and returns;
otherwise it returns an error without touching the slice.  Timestamps are
abstract numbers supplied as the `now` argument. -/

/-- `agent.Task` from src/agent/task.go. -/
structure Task where
  id : Nat
  content : String
  status : String
  activeForm : String
  createdAt : Nat
  updatedAt : Nat
deriving DecidableEq, Repr

/-- The status strings accepted by `UpdateTask`'s switch. -/
def validStatus (st : String) : Prop :=
  st = "pending" ∨ st = "in_progress" ∨ st = "completed"

instance (st : String) : Decidable (validStatus st) := by
  unfold validStatus; infer_instance

/-- The scan loop of `agent.UpdateTask`: update the first task whose id
matches, error if none does. -/
def updateTaskGo (id : Nat) (st : String) (now : Nat) : List Task → Except String (List Task)
  | [] => .error ("task " ++ toString id ++ " not found")
  | t :: rest =>
    if t.id = id then .ok ({ t with status := st, updatedAt := now } :: rest)
    else
      match updateTaskGo id st now rest with
      | .ok l => .ok (t :: l)
      | .error e => .error e

/-- `agent.UpdateTask` from src/agent/task.go. -/
def UpdateTask (tasks : List Task) (id : Nat) (st : String) (now : Nat) :
    Except String (List Task) :=
  if validStatus st then updateTaskGo id st now tasks
  else .error ("invalid status " ++ st)

/-- The agent's task slice after the call: Go mutates `a.tasks` only on the
success path, so an error leaves the slice exactly as it was. -/
def AgentUpdateTask (tasks : List Task) (id : Nat) (st : String) (now : Nat) :
    Option String × List Task :=
  match UpdateTask tasks id st now with
  | .ok l => (none, l)
  | .error e => (some e, tasks)

theorem updateTaskGo_notFound (id : Nat) (st : String) (now : Nat) (tasks : List Task)
    (h : ∀ t ∈ tasks, t.id ≠ id) : ∃ e, updateTaskGo id st now tasks = .error e := by
  induction tasks with
  | nil => exact ⟨_, rfl⟩
  | cons t rest ih =>
    have ht : t.id ≠ id := h t (List.mem_cons_self _ _)
    obtain ⟨e, he⟩ := ih (fun x hx => h x (List.mem_cons_of_mem _ hx))
    exact ⟨e, by simp [updateTaskGo, ht, he]⟩

theorem updateTaskGo_found (id : Nat) (st : String) (now : Nat) :
    ∀ (tasks : List Task) (i : Nat) (tk : Task), tasks[i]? = some tk → tk.id = id →
    (tasks.map Task.id).Nodup →
    ∃ l', updateTaskGo id st now tasks = .ok l'
      ∧ l'.length = tasks.length
      ∧ l'[i]? = some { tk with status := st, updatedAt := now }
      ∧ ∀ j, j ≠ i → l'[j]? = tasks[j]? := by
  intro tasks
  induction tasks with
  | nil => intro i tk h; simp at h
  | cons t rest ih =>
    intro i tk htk hid hnd
    cases i with
    | zero =>
      simp only [List.getElem?_cons_zero, Option.some.injEq] at htk
      rcases htk with rfl
      refine ⟨{ t with status := st, updatedAt := now } :: rest,
        by simp [updateTaskGo, hid], by simp, by simp, ?_⟩
      intro j hj
      cases j with
      | zero => exact absurd rfl hj
      | succ j' => simp
    | succ i' =>
      simp only [List.getElem?_cons_succ] at htk
      simp only [List.map_cons, List.nodup_cons] at hnd
      have htmem : tk ∈ rest := List.getElem?_mem htk
      have hne : t.id ≠ id := by
        intro hcontra
        exact hnd.1 (hcontra ▸ hid ▸ List.mem_map_of_mem Task.id htmem)
      obtain ⟨l'', hok, hlen, hat, hother⟩ := ih i' tk htk hid hnd.2
      refine ⟨t :: l'', by simp [updateTaskGo, hne, hok], by simp [hlen], by simpa using hat, ?_⟩
      intro j hj
      cases j with
      | zero => simp
      | succ j' =>
        simp only [List.getElem?_cons_succ]
        exact hother j' (fun h => hj (h ▸ rfl))

/-- C10: for a task list with distinct ids, `UpdateTask(id, status)` with a
valid status and an existing id changes exactly the targeted task's `status`
and `updated_at` fields (its other fields and every other task are unchanged);
an invalid status or an unknown id yields an error and leaves the entire task
list unchanged. -/
theorem updateTask_frame (tasks : List Task) (id : Nat) (st : String) (now : Nat) :
    (validStatus st → (tasks.map Task.id).Nodup →
      ∀ (i : Nat) (tk : Task), tasks[i]? = some tk → tk.id = id →
      ∃ l', UpdateTask tasks id st now = .ok l'
        ∧ AgentUpdateTask tasks id st now = (none, l')
        ∧ l'.length = tasks.length
        ∧ l'[i]? = some { tk with status := st, updatedAt := now }
        ∧ ∀ j, j ≠ i → l'[j]? = tasks[j]?)
    ∧ ((¬ validStatus st ∨ ∀ t ∈ tasks, t.id ≠ id) →
      (∃ e, UpdateTask tasks id st now = .error e)
      ∧ (AgentUpdateTask tasks id st now).2 = tasks) := by
  constructor
  · intro hval hnd i tk htk hid
    obtain ⟨l', hok, hlen, hat, hother⟩ := updateTaskGo_found id st now tasks i tk htk hid hnd
    have hupd : UpdateTask tasks id st now = .ok l' := by simp [UpdateTask, hval, hok]
    exact ⟨l', hupd, by simp [AgentUpdateTask, hupd], hlen, hat, hother⟩
  · intro h
    rcases h with hval | hnotfound
    · have herr : UpdateTask tasks id st now = .error ("invalid status " ++ st) := by
        simp [UpdateTask, hval]
      exact ⟨⟨_, herr⟩, by simp [AgentUpdateTask, herr]⟩
    · by_cases hval : validStatus st
      · obtain ⟨e, he⟩ := updateTaskGo_notFound id st now tasks hnotfound
        have herr : UpdateTask tasks id st now = .error e := by simp [UpdateTask, hval, he]
        exact ⟨⟨e, herr⟩, by simp [AgentUpdateTask, herr]⟩
      · have herr : UpdateTask tasks id st now = .error ("invalid status " ++ st) := by
          simp [UpdateTask, hval]
        exact ⟨⟨_, herr⟩, by simp [AgentUpdateTask, herr]⟩

/-- C10 (witness): on the two-task list `[1 pending, 2 pending]`, updating
task 2 to `in_progress` succeeds and frames task 1; updating unknown task 3
errors and leaves the list unchanged. -/
theorem updateTask_frame_witness :
    (∃ l', UpdateTask [⟨1, "a", "pending", "A", 0, 0⟩, ⟨2, "b", "pending", "B", 0, 0⟩]
          2 "in_progress" 5 = .ok l'
      ∧ AgentUpdateTask [⟨1, "a", "pending", "A", 0, 0⟩, ⟨2, "b", "pending", "B", 0, 0⟩]
          2 "in_progress" 5 = (none, l')
      ∧ l'.length = 2
      ∧ l'[1]? = some ⟨2, "b", "in_progress", "B", 0, 5⟩
      ∧ ∀ j, j ≠ 1 →
          l'[j]? = [Task.mk 1 "a" "pending" "A" 0 0, Task.mk 2 "b" "pending" "B" 0 0][j]?)
    ∧ (∃ e, UpdateTask [⟨1, "a", "pending", "A", 0, 0⟩, ⟨2, "b", "pending", "B", 0, 0⟩]
          3 "in_progress" 5 = .error e)
    ∧ (AgentUpdateTask [⟨1, "a", "pending", "A", 0, 0⟩, ⟨2, "b", "pending", "B", 0, 0⟩]
          3 "in_progress" 5).2
        = [⟨1, "a", "pending", "A", 0, 0⟩, ⟨2, "b", "pending", "B", 0, 0⟩] := by
  have h1 := (updateTask_frame
    [⟨1, "a", "pending", "A", 0, 0⟩, ⟨2, "b", "pending", "B", 0, 0⟩] 2 "in_progress" 5).1
    (by decide) (by decide) 1 ⟨2, "b", "pending", "B", 0, 0⟩ (by decide) rfl
  have h2 := (updateTask_frame
    [⟨1, "a", "pending", "A", 0, 0⟩, ⟨2, "b", "pending", "B", 0, 0⟩] 3 "in_progress" 5).2
    (Or.inr (by decide))
  obtain ⟨l', ha, hb, hc, hd, he⟩ := h1
  exact ⟨⟨l', ha, hb, by simpa using hc, hd, he⟩, h2.1, h2.2⟩

/-! ## Retry policy (`llm.doWithRetry` / `llm.backoffDelay`, src/llm/retry.go)

Durations are milliseconds as natural numbers (the Go float64 products
`base · 2^attempt` are exact for these magnitudes).  The HTTP responses are
scripted per attempt as a status code plus the optional integer-seconds
`Retry-After` header; `rand.Intn(1000)` jitter draws are scripted as a
sequence consumed one draw per `backoffDelay` call, in program order. -/

/-- `llm.retryConfig` (milliseconds). -/
structure RetryConfig where
  maxRetries : Nat
  baseDelay : Nat
  maxDelay : Nat

/-- `llm.defaultRetryConfig`: 5 retries, base 2s, max 60s. -/
def defaultRetryConfig : RetryConfig := ⟨5, 2000, 60000⟩

/-- `llm.backoffDelay attempt baseDelay maxDelay` with the jitter draw made
explicit: `min maxDelay (baseDelay · 2^attempt + jitter)`. -/
def backoffDelay (attempt baseDelay maxDelay jitter : Nat) : Nat :=
  let delay := baseDelay * 2 ^ attempt + jitter
  if delay > maxDelay then maxDelay else delay

/-- A scripted HTTP response: status code and optional `Retry-After` seconds. -/
structure SimResp where
  status : Nat
  retryAfter : Option Nat
deriving DecidableEq, Repr

/-- `llm.parseRetryAfter` (milliseconds; 0 when the header is absent). -/
def parseRetryAfter (r : SimResp) : Nat :=
  (r.retryAfter.getD 0) * 1000

/-- How `llm.doWithRetry` returns. -/
inductive RetryOutcome
  | success (attempt : Nat)
  | authError (status : Nat)
  | apiError (status : Nat)
  | exhausted (status : Nat)
deriving DecidableEq, Repr

/-- The loop body of `llm.doWithRetry`.  `fuel` counts the remaining loop
iterations (`maxRetries + 1` at entry, so the fuel-exhausted base case is the
unreachable final `return` of the Go loop).  The accumulated backoff waits are
collected in reverse in `acc`.  Note the faithful detail: when a `Retry-After`
header exceeds the next scheduled backoff, the Go code assigns
`cfg.baseDelay = retryAfter` on the local `cfg`, which persists for every
later iteration of this call. -/
def retryGo (maxRetries maxDelay : Nat) (script : Nat → SimResp) (jitters : Nat → Nat) :
    (fuel attempt base jIdx : Nat) → (acc : List Nat) → List Nat × RetryOutcome
  | 0, _, _, _, acc => (acc.reverse, RetryOutcome.exhausted 0)
  | fuel + 1, attempt, base, jIdx, acc =>
    let waited : List Nat × Nat :=
      if attempt > 0 then
        (backoffDelay (attempt - 1) base maxDelay (jitters jIdx) :: acc, jIdx + 1)
      else (acc, jIdx)
    let acc1 := waited.1
    let jIdx1 := waited.2
    let resp := script attempt
    if 200 ≤ resp.status ∧ resp.status < 300 then
      (acc1.reverse, RetryOutcome.success attempt)
    else if resp.status = 401 ∨ resp.status = 403 then
      (acc1.reverse, RetryOutcome.authError resp.status)
    else if resp.status = 429 ∨ 500 ≤ resp.status then
      let ra := parseRetryAfter resp
      let bj : Nat × Nat :=
        if 0 < ra ∧ ra < maxDelay then
          let nextB := backoffDelay attempt base maxDelay (jitters jIdx1)
          if ra > nextB then (ra, jIdx1 + 1) else (base, jIdx1 + 1)
        else (base, jIdx1)
      if attempt < maxRetries then
        retryGo maxRetries maxDelay script jitters fuel (attempt + 1) bj.1 bj.2 acc1
      else (acc1.reverse, RetryOutcome.exhausted resp.status)
    else (acc1.reverse, RetryOutcome.apiError resp.status)

/-- `llm.doWithRetry` over a scripted response sequence: returns the list of
backoff waits performed (in order) and the outcome. -/
def doWithRetry (cfg : RetryConfig) (script : Nat → SimResp) (jitters : Nat → Nat) :
    List Nat × RetryOutcome :=
  retryGo cfg.maxRetries cfg.maxDelay script jitters (cfg.maxRetries + 1) 0 cfg.baseDelay 0 []

/-- The C3 failing input: attempt 0 gets `429 Retry-After: 10`, attempt 1 gets
`429` with no header, attempt 2 gets `200`.  Jitter draws are all zero. -/
def c3Script : Nat → SimResp :=
  fun n => if n = 0 then ⟨429, some 10⟩ else if n = 1 then ⟨429, none⟩ else ⟨200, none⟩

/-- C3: the `Retry-After` override is not one-shot.  On `c3Script` the wait
after the header-free 429 at attempt 1 is `min(60s, 10s·2^1) = 20s` — computed
from the mutated base delay of 10s — whereas the schedule from the original
base of 2s is `min(60s, 2s·2^1) = 4s`.  The code's own comment says the
override is "temporarily for next iteration", but `cfg.baseDelay = retryAfter`
persists for all later attempts of the call. -/
theorem retryAfter_mutates_schedule :
    doWithRetry defaultRetryConfig c3Script (fun _ => 0)
      = ([10000, 20000], RetryOutcome.success 2)
    ∧ backoffDelay 1 defaultRetryConfig.baseDelay defaultRetryConfig.maxDelay 0 = 4000
    ∧ (20000 : Nat) ≠ 4000 := by
  refine ⟨by decide, by decide, by decide⟩

/-! ## Messages and the stream accumulator (`llm.AccumulateStream`, src/llm/stream.go)

`llm.Message` with the pointer-valued `Content` becomes `Option String`.
`AccumulateStream` consumes a list of stream events in order; the Go
`map[int]*ToolCall` keyed by delta index becomes an association list in
first-appearance order (only lookups by key and the key count are observed,
so the representation is faithful). -/

/-- `llm.FunctionCall`. -/
structure FunctionCall where
  name : String
  arguments : String
deriving DecidableEq, Repr

/-- `llm.ToolCall`. -/
structure ToolCall where
  id : String
  type : String
  function : FunctionCall
deriving DecidableEq, Repr

/-- `llm.Message`; `content = none` models a nil `*string`. -/
structure Message where
  role : String
  content : Option String
  toolCalls : List ToolCall
  toolCallID : String
deriving DecidableEq, Repr

/-- `llm.TextMessage`. -/
def TextMessage (role content : String) : Message :=
  ⟨role, some content, [], ""⟩

/-- `llm.ToolResultMessage`. -/
def ToolResultMessage (tcid content : String) : Message :=
  ⟨"tool", some content, [], tcid⟩

/-- `llm.Usage`. -/
structure Usage where
  promptTokens : Nat
  completionTokens : Nat
  totalTokens : Nat
deriving DecidableEq, Repr

/-- `llm.Response`. -/
structure Response where
  message : Message
  finishReason : String
  usage : Usage
deriving DecidableEq, Repr

/-- `llm.ToolCallDelta` (the provider sends non-negative indices). -/
structure ToolCallDelta where
  index : Nat
  id : String
  name : String
  arguments : String
deriving DecidableEq, Repr

/-- `llm.StreamEvent`. -/
structure StreamEvent where
  textDelta : String
  toolCallDeltas : List ToolCallDelta
  done : Bool
  isErr : Bool
  usage : Option Usage
  finishReason : String
deriving DecidableEq, Repr

/-- Go `&ToolCall{Type: "function"}`: the zero tool call created on a fresh
index. -/
def emptyToolCall : ToolCall :=
  ⟨"", "function", ⟨"", ""⟩⟩

/-- One tool-call delta applied to the entry for its index: `id`/`name` are
overwritten when the delta's field is non-empty (so the LAST non-empty value
survives), arguments fragments are appended. -/
def applyDelta (tc : ToolCall) (d : ToolCallDelta) : ToolCall :=
  { tc with
    id := if d.id ≠ "" then d.id else tc.id,
    function :=
      { name := if d.name ≠ "" then d.name else tc.function.name,
        arguments := tc.function.arguments ++ d.arguments } }

/-- The `toolCalls[delta.Index]` map update in `AccumulateStream`: mutate the
existing entry, or create one (appended in first-appearance order). -/
def processDelta : List (Nat × ToolCall) → ToolCallDelta → List (Nat × ToolCall)
  | [], d => [(d.index, applyDelta emptyToolCall d)]
  | (k, tc) :: rest, d =>
    if k = d.index then (k, applyDelta tc d) :: rest
    else (k, tc) :: processDelta rest d

/-- Association-list lookup by index (Go map read `toolCalls[i]`). -/
def alookupTC (i : Nat) : List (Nat × ToolCall) → Option ToolCall
  | [] => none
  | (k, tc) :: rest => if k = i then some tc else alookupTC i rest

/-- The accumulator's loop state. -/
structure StreamAcc where
  content : String
  toolCalls : List (Nat × ToolCall)
  usage : Usage
  finishReason : String
deriving DecidableEq, Repr

/-- The accumulator's initial state. -/
def initAcc : StreamAcc :=
  ⟨"", [], ⟨0, 0, 0⟩, ""⟩

/-- The `for event := range events` loop of `AccumulateStream`: an error event
aborts with the error, `done` breaks, otherwise text is appended, tool-call
deltas are folded into the map, and usage / finish reason are updated. -/
def streamFold : List StreamEvent → StreamAcc → Except Unit StreamAcc
  | [], acc => .ok acc
  | e :: es, acc =>
    if e.isErr then .error ()
    else if e.done then .ok acc
    else
      streamFold es
        { content := acc.content ++ e.textDelta,
          toolCalls := e.toolCallDeltas.foldl processDelta acc.toolCalls,
          usage := match e.usage with | some u => u | none => acc.usage,
          finishReason := if e.finishReason ≠ "" then e.finishReason else acc.finishReason }

/-- The final message assembly of `AccumulateStream`: content pointer is nil
iff no text arrived, and the calls list is built by probing indices
`0 … len(map)-1`, skipping absent ones. -/
def buildResponse (acc : StreamAcc) : Response :=
  ⟨⟨"assistant",
    (if acc.content.length > 0 then some acc.content else none),
    (List.range acc.toolCalls.length).filterMap (fun i => alookupTC i acc.toolCalls),
    ""⟩,
   acc.finishReason, acc.usage⟩

/-- `llm.AccumulateStream` over a finite event list. -/
def AccumulateStream (events : List StreamEvent) : Except Unit Response :=
  (streamFold events initAcc).map buildResponse

/-- The tool-call deltas the accumulator actually processes: everything before
the first `done` (or error) event. -/
def processedDeltas : List StreamEvent → List ToolCallDelta
  | [] => []
  | e :: es => if e.isErr then [] else if e.done then [] else e.toolCallDeltas ++ processedDeltas es

/-- The last non-empty string of a list, or `""`. -/
def lastNonEmpty (l : List String) : String :=
  l.foldl (fun a s => if s ≠ "" then s else a) ""

theorem alookupTC_processDelta_self (m : List (Nat × ToolCall)) (d : ToolCallDelta) :
    alookupTC d.index (processDelta m d)
      = some (applyDelta ((alookupTC d.index m).getD emptyToolCall) d) := by
  induction m with
  | nil => simp [processDelta, alookupTC]
  | cons e rest ih =>
    obtain ⟨k, tc⟩ := e
    by_cases hk : k = d.index
    · subst hk; simp [processDelta, alookupTC]
    · simp [processDelta, hk, alookupTC, ih]

theorem alookupTC_processDelta_ne (m : List (Nat × ToolCall)) (d : ToolCallDelta)
    (i : Nat) (h : i ≠ d.index) :
    alookupTC i (processDelta m d) = alookupTC i m := by
  have hdi : ¬ d.index = i := fun hc => h hc.symm
  induction m with
  | nil => simp [processDelta, alookupTC, hdi]
  | cons e rest ih =>
    obtain ⟨k, tc⟩ := e
    by_cases hk : k = d.index
    · subst hk
      simp [processDelta, alookupTC, hdi]
    · simp [processDelta, hk, alookupTC, ih]

/-- The key list of the map after one delta: unchanged, or the fresh index
appended. -/
theorem keys_processDelta (m : List (Nat × ToolCall)) (d : ToolCallDelta) :
    (processDelta m d).map Prod.fst
      = if (alookupTC d.index m).isSome then m.map Prod.fst
        else m.map Prod.fst ++ [d.index] := by
  induction m with
  | nil => simp [processDelta, alookupTC]
  | cons e rest ih =>
    obtain ⟨k, tc⟩ := e
    by_cases hk : k = d.index
    · subst hk; simp [processDelta, alookupTC]
    · simp only [processDelta, hk, if_false, alookupTC, List.map_cons, ih]
      by_cases hs : (alookupTC d.index rest).isSome
      · simp [hs, hk]
      · simp [hs, hk]

theorem alookupTC_isSome_iff_mem (i : Nat) (m : List (Nat × ToolCall)) :
    (alookupTC i m).isSome ↔ i ∈ m.map Prod.fst := by
  induction m with
  | nil => simp [alookupTC]
  | cons e rest ih =>
    obtain ⟨k, tc⟩ := e
    by_cases hk : k = i
    · subst hk; simp [alookupTC]
    · have hik : ¬ i = k := fun hc => hk hc.symm
      simp [alookupTC, hk, ih, hik]

theorem nodup_keys_processDelta (m : List (Nat × ToolCall)) (d : ToolCallDelta)
    (h : (m.map Prod.fst).Nodup) : ((processDelta m d).map Prod.fst).Nodup := by
  rw [keys_processDelta]
  by_cases hs : (alookupTC d.index m).isSome
  · simpa [hs]
  · have hnm : d.index ∉ m.map Prod.fst := fun hmem =>
      hs ((alookupTC_isSome_iff_mem d.index m).mpr hmem)
    simp only [hs, if_false]
    refine List.nodup_append.mpr ⟨h, List.nodup_singleton _, ?_⟩
    intro x hx hx2
    rcases List.mem_singleton.mp hx2 with rfl
    exact hnm hx

/-- Folding a delta list into the map, entry by entry. -/
theorem alookupTC_foldl_processDelta (ds : List ToolCallDelta) :
    ∀ (m : List (Nat × ToolCall)) (i : Nat),
    alookupTC i (ds.foldl processDelta m)
      = if (ds.filter (fun d => d.index = i)).isEmpty then alookupTC i m
        else some ((ds.filter (fun d => d.index = i)).foldl applyDelta
          ((alookupTC i m).getD emptyToolCall)) := by
  induction ds with
  | nil => intro m i; simp
  | cons d ds' ih =>
    intro m i
    by_cases hd : d.index = i
    · have hfil : (d :: ds').filter (fun x => x.index = i)
          = d :: ds'.filter (fun x => x.index = i) :=
        List.filter_cons_of_pos (by simp [hd])
      have hlook : alookupTC i (processDelta m d)
          = some (applyDelta ((alookupTC i m).getD emptyToolCall) d) := by
        rw [← hd]; exact alookupTC_processDelta_self m d
      rw [List.foldl_cons, ih (processDelta m d) i, hfil]
      by_cases he : (ds'.filter (fun x => x.index = i)).isEmpty
      · rw [if_pos he, List.isEmpty_iff.mp he] at *
        simp [hlook, List.isEmpty_iff.mp he]
      · simp [he, hlook]
    · have hne := alookupTC_processDelta_ne m d i (fun hc => hd (hc.symm : d.index = i))
      have hfil : (d :: ds').filter (fun x => x.index = i)
          = ds'.filter (fun x => x.index = i) :=
        List.filter_cons_of_neg (by simp [hd])
      rw [List.foldl_cons, ih (processDelta m d) i, hfil, hne]

theorem nodup_keys_foldl_processDelta (ds : List ToolCallDelta) :
    ∀ (m : List (Nat × ToolCall)), (m.map Prod.fst).Nodup →
    (((ds.foldl processDelta m)).map Prod.fst).Nodup := by
  induction ds with
  | nil => intro m h; simpa using h
  | cons d ds' ih =>
    intro m h
    exact ih (processDelta m d) (nodup_keys_processDelta m d h)

/-- After a successful fold of the event list, the tool-call map is exactly
the fold of the processed deltas. -/
theorem streamFold_toolCalls (events : List StreamEvent) :
    ∀ (acc acc' : StreamAcc), streamFold events acc = .ok acc' →
    acc'.toolCalls = (processedDeltas events).foldl processDelta acc.toolCalls := by
  induction events with
  | nil =>
    intro acc acc' h
    simp only [streamFold, Except.ok.injEq] at h
    subst h; simp [processedDeltas]
  | cons e es ih =>
    intro acc acc' h
    by_cases herr : e.isErr
    · simp [streamFold, herr] at h
    · by_cases hdone : e.done
      · simp only [streamFold, herr, Bool.false_eq_true, if_false, hdone, if_true,
          Except.ok.injEq] at h
        subst h
        simp [processedDeltas, herr, hdone]
      · simp only [streamFold, herr, Bool.false_eq_true, if_false, hdone] at h
        have := ih _ _ h
        simp only [processedDeltas, herr, Bool.false_eq_true, if_false, hdone,
          List.foldl_append] at this ⊢
        exact this

theorem streamFold_nodup_keys (events : List StreamEvent) (acc : StreamAcc)
    (h : streamFold events initAcc = .ok acc) : (acc.toolCalls.map Prod.fst).Nodup := by
  rw [streamFold_toolCalls events initAcc acc h]
  exact nodup_keys_foldl_processDelta (processedDeltas events) initAcc.toolCalls (by simp [initAcc])

theorem filterMap_allSome {α : Type} (f : Nat → Option α) :
    ∀ (l : List Nat), (∀ x ∈ l, (f x).isSome) →
    (l.filterMap f).length = l.length ∧ ∀ j : Nat, (l.filterMap f)[j]? = (l[j]?).bind f := by
  intro l
  induction l with
  | nil => intro _; simp
  | cons x xs ih =>
    intro h
    obtain ⟨a, ha⟩ := Option.isSome_iff_exists.mp (h x (List.mem_cons_self _ _))
    obtain ⟨hlen, hat⟩ := ih (fun y hy => h y (List.mem_cons_of_mem _ hy))
    refine ⟨by simp [List.filterMap_cons, ha, hlen], ?_⟩
    intro j
    cases j with
    | zero => simp [List.filterMap_cons, ha]
    | succ j' => simp [List.filterMap_cons, ha, hat j']

theorem foldl_applyDelta_id (ds : List ToolCallDelta) :
    ∀ tc0 : ToolCall, (ds.foldl applyDelta tc0).id
      = ds.foldl (fun a d => if d.id ≠ "" then d.id else a) tc0.id := by
  induction ds with
  | nil => intro tc0; rfl
  | cons d ds' ih =>
    intro tc0
    simp only [List.foldl_cons, ih]
    rfl

theorem foldl_applyDelta_name (ds : List ToolCallDelta) :
    ∀ tc0 : ToolCall, (ds.foldl applyDelta tc0).function.name
      = ds.foldl (fun a d => if d.name ≠ "" then d.name else a) tc0.function.name := by
  induction ds with
  | nil => intro tc0; rfl
  | cons d ds' ih =>
    intro tc0
    simp only [List.foldl_cons, ih]
    rfl

theorem foldl_applyDelta_args (ds : List ToolCallDelta) :
    ∀ tc0 : ToolCall, (ds.foldl applyDelta tc0).function.arguments
      = ds.foldl (fun a d => a ++ d.arguments) tc0.function.arguments := by
  induction ds with
  | nil => intro tc0; rfl
  | cons d ds' ih =>
    intro tc0
    simp only [List.foldl_cons, ih]
    rfl

/-- C4 (amended): for every finished stream whose distinct tool-call delta
indices are exactly `0 … k-1`, `AccumulateStream`'s response carries exactly
one tool call per index, in ascending index order (the `j`-th call in the list
is the call accumulated for index `j`).  When the index set is NOT contiguous
from 0 the final collection loop (`for i := 0; i < len(toolCalls); i++`)
silently drops every index `≥` the number of distinct indices — see the
counterexample. -/
theorem accumulate_ascending (events : List StreamEvent) (acc : StreamAcc) (k : Nat)
    (h : streamFold events initAcc = .ok acc)
    (hk : ∀ i : Nat, (alookupTC i acc.toolCalls).isSome ↔ i < k) :
    ∃ resp, AccumulateStream events = .ok resp
      ∧ resp.message.toolCalls.length = k
      ∧ ∀ j : Nat, j < k → resp.message.toolCalls[j]? = alookupTC j acc.toolCalls := by
  have hnd := streamFold_nodup_keys events acc h
  have hts : (acc.toolCalls.map Prod.fst).toFinset = Finset.range k := by
    ext x
    rw [List.mem_toFinset, ← alookupTC_isSome_iff_mem, hk x, Finset.mem_range]
  have hlen : acc.toolCalls.length = k := by
    have h1 : (acc.toolCalls.map Prod.fst).length = k := by
      rw [← List.toFinset_card_of_nodup hnd, hts, Finset.card_range]
    simpa using h1
  have hall : ∀ x ∈ List.range acc.toolCalls.length,
      ((fun i => alookupTC i acc.toolCalls) x).isSome := by
    intro x hx
    rw [List.mem_range, hlen] at hx
    exact (hk x).mpr hx
  obtain ⟨hfl, hfat⟩ := filterMap_allSome (fun i => alookupTC i acc.toolCalls)
    (List.range acc.toolCalls.length) hall
  refine ⟨buildResponse acc, ?_, ?_, ?_⟩
  · simp only [AccumulateStream, h]
    rfl
  · simp only [buildResponse]
    rw [hfl, List.length_range, hlen]
  · intro j hj
    simp only [buildResponse]
    rw [hfat j, List.getElem?_range (hlen ▸ hj)]
    rfl

/-- The C4 counterexample events: a single delta with index 1, then done. -/
def c4Events : List StreamEvent :=
  [⟨"", [⟨1, "call-a", "glob", "\x7b\x7d"⟩], false, false, none, ""⟩,
   ⟨"", [], true, false, none, ""⟩]

/-- C4 (counterexample): a finished stream with one delta whose index is 1
(a non-contiguous index set) accumulates to a response with an EMPTY tool-call
list — the tool call for index 1 is dropped, contradicting "exactly one tool
call for each distinct delta index ... including when the set of indices is
not contiguous starting from 0". -/
theorem accumulate_drops_noncontiguous :
    (AccumulateStream c4Events).map (fun r => r.message.toolCalls) = .ok [] := by
  rfl

/-- The C4 witness events: deltas with indices 0 and 1, then done. -/
def c4wEvents : List StreamEvent :=
  [⟨"", [⟨0, "a", "f", ""⟩, ⟨1, "b", "g", ""⟩], false, false, none, ""⟩,
   ⟨"", [], true, false, none, ""⟩]

/-- C4 (witness): on a stream with contiguous indices {0, 1} the accumulated
response has exactly two tool calls, the `j`-th being the one for index `j`. -/
theorem accumulate_ascending_witness :
    ∃ resp, AccumulateStream c4wEvents = .ok resp
      ∧ resp.message.toolCalls.length = 2
      ∧ ∀ j : Nat, j < 2 → resp.message.toolCalls[j]?
          = alookupTC j [(0, ⟨"a", "function", ⟨"f", ""⟩⟩), (1, ⟨"b", "function", ⟨"g", ""⟩⟩)] :=
  accumulate_ascending c4wEvents
    ⟨"", [(0, ⟨"a", "function", ⟨"f", ""⟩⟩), (1, ⟨"b", "function", ⟨"g", ""⟩⟩)], ⟨0, 0, 0⟩, ""⟩
    2 (by rfl)
    (by
      intro i
      constructor
      · intro hsome
        rcases Nat.lt_or_ge i 2 with h2 | h2
        · exact h2
        · exfalso
          have h0 : ¬ (0 = i) := by omega
          have h1 : ¬ (1 = i) := by omega
          simp [alookupTC, h0, h1] at hsome
      · intro h2
        interval_cases i <;> simp [alookupTC])

/-- C5 (amended): in the accumulated per-index grouping, `id` and `name` hold
the LAST non-empty value delivered for that index (the Go code overwrites on
every non-empty delta, so "first non-empty wins" is false — see the
counterexample), and the arguments string is the concatenation of that index's
fragments in arrival order. -/
theorem accumulate_grouping (events : List StreamEvent) (acc : StreamAcc)
    (h : streamFold events initAcc = .ok acc) (i : Nat) (tc : ToolCall)
    (h2 : alookupTC i acc.toolCalls = some tc) :
    tc.id = lastNonEmpty
        (((processedDeltas events).filter (fun d => d.index = i)).map (fun d => d.id))
    ∧ tc.function.name = lastNonEmpty
        (((processedDeltas events).filter (fun d => d.index = i)).map (fun d => d.name))
    ∧ tc.function.arguments = String.join
        (((processedDeltas events).filter (fun d => d.index = i)).map (fun d => d.arguments)) := by
  have htc := streamFold_toolCalls events initAcc acc h
  rw [htc, alookupTC_foldl_processDelta] at h2
  by_cases he : ((processedDeltas events).filter (fun d => d.index = i)).isEmpty
  · rw [if_pos he] at h2
    simp [initAcc, alookupTC] at h2
  · rw [if_neg he] at h2
    have hbase : (alookupTC i initAcc.toolCalls).getD emptyToolCall = emptyToolCall := by
      simp [initAcc, alookupTC]
    rw [hbase] at h2
    injection h2 with h3
    subst h3
    refine ⟨?_, ?_, ?_⟩
    · rw [foldl_applyDelta_id, lastNonEmpty, List.foldl_map]
      rfl
    · rw [foldl_applyDelta_name, lastNonEmpty, List.foldl_map]
      rfl
    · rw [foldl_applyDelta_args, String.join, List.foldl_map]
      rfl

/-- The C5 counterexample events: index 0 receives a non-empty id `"a"` and
later a second non-empty id `"b"`, with argument fragments `"x"` then `"y"`. -/
def c5Events : List StreamEvent :=
  [⟨"", [⟨0, "a", "f", "x"⟩, ⟨0, "b", "", "y"⟩], false, false, none, ""⟩,
   ⟨"", [], true, false, none, ""⟩]

/-- C5 (counterexample): with the id delivered non-empty in two deltas for
index 0 (`"a"` then `"b"`), the accumulated tool call keeps `"b"` — the LAST
non-empty value — not the first (`"a"`) as the claim states. -/
theorem accumulate_id_last_wins :
    (AccumulateStream c5Events).map (fun r => r.message.toolCalls.map (fun t => t.id))
        = .ok ["b"]
    ∧ (AccumulateStream c5Events).map (fun r => r.message.toolCalls.map (fun t => t.id))
        ≠ .ok ["a"] := by
  have heq : (AccumulateStream c5Events).map (fun r => r.message.toolCalls.map (fun t => t.id))
      = .ok ["b"] := rfl
  refine ⟨heq, ?_⟩
  rw [heq]
  intro hcon
  have hlist : (["b"] : List String) = ["a"] := by injection hcon
  exact absurd hlist (by decide)

/-- C5 (witness): the grouping theorem applied to the counterexample stream:
the accumulated call for index 0 has id `"b"`, name `"f"` and arguments
`"xy"`. -/
theorem accumulate_grouping_witness :
    (⟨"b", "function", ⟨"f", "xy"⟩⟩ : ToolCall).id = lastNonEmpty
        (((processedDeltas c5Events).filter (fun d => d.index = 0)).map (fun d => d.id))
    ∧ (⟨"b", "function", ⟨"f", "xy"⟩⟩ : ToolCall).function.name = lastNonEmpty
        (((processedDeltas c5Events).filter (fun d => d.index = 0)).map (fun d => d.name))
    ∧ (⟨"b", "function", ⟨"f", "xy"⟩⟩ : ToolCall).function.arguments = String.join
        (((processedDeltas c5Events).filter (fun d => d.index = 0)).map (fun d => d.arguments)) :=
  accumulate_grouping c5Events
    ⟨"", [(0, ⟨"b", "function", ⟨"f", "xy"⟩⟩)], ⟨0, 0, 0⟩, ""⟩
    (by rfl) 0 ⟨"b", "function", ⟨"f", "xy"⟩⟩ (by rfl)

/-! ## Context compaction (`agent.doCompact`, src/agent/agent.go)

`doCompact` serializes the history, asks the LLM for a summary via `send`,
and on success replaces the history with `[system, summary?, last-user?]`;
on failure it warns and leaves the history unchanged.  The outcome of the
`send` call is passed in explicitly.  Go indexes `a.messages[0]`; the agent
always holds the system prompt at index 0, so the empty-history case (a Go
panic) is mapped to the empty list and never reached under the claims'
hypothesis. -/

/-- `agent.doCompact`, parametrized by the result of `client.SendMessage`. -/
def doCompact (messages : List Message) (sendResult : Except Unit Response) : List Message :=
  match messages with
  | [] => []
  | systemMsg :: rest =>
    match sendResult with
    | .error _ => systemMsg :: rest
    | .ok resp =>
      let summary := match resp.message.content with | some s => s | none => ""
      let lastUserMsg := (systemMsg :: rest).reverse.find? (fun m => m.role = "user")
      let withSummary :=
        if summary ≠ "" then
          [systemMsg, TextMessage "user"
            ("[Conversation compacted] Here is a summary of our conversation so far:\n\n"
              ++ summary)]
        else [systemMsg]
      match lastUserMsg with
      | some m => withSummary ++ [m]
      | none => withSummary

/-- C7 (amended): when the summarization `send` succeeds, `do_compact` leaves
at most 3 messages and the original system message at index 0; when `send`
fails, the history is left entirely unchanged (so index 0 is still the system
message, but the length bound does NOT hold — see the counterexample). -/
theorem doCompact_bound (sys : Message) (rest : List Message)
    (sendResult : Except Unit Response) :
    (∀ resp, sendResult = .ok resp →
      (doCompact (sys :: rest) sendResult).length ≤ 3
      ∧ (doCompact (sys :: rest) sendResult)[0]? = some sys)
    ∧ (∀ e, sendResult = .error e → doCompact (sys :: rest) sendResult = sys :: rest) := by
  constructor
  · rintro resp rfl
    simp only [doCompact]
    by_cases hs : (match resp.message.content with | some s => s | none => "") ≠ ""
    · rw [if_pos hs]
      split <;> exact ⟨by simp, by simp⟩
    · rw [if_neg hs]
      split <;> exact ⟨by simp, by simp⟩
  · rintro e rfl
    rfl

/-- C7 (counterexample): with a 4-message history and a failing `send`,
`do_compact` returns the history unchanged — 4 messages, violating the
claimed `|history| ≤ 3` for "every outcome of the summarization send call". -/
theorem doCompact_failure_exceeds_bound :
    doCompact [TextMessage "system" "s", TextMessage "user" "u",
        TextMessage "assistant" "a", TextMessage "user" "u2"] (.error ())
      = [TextMessage "system" "s", TextMessage "user" "u",
        TextMessage "assistant" "a", TextMessage "user" "u2"]
    ∧ ¬ ((doCompact [TextMessage "system" "s", TextMessage "user" "u",
        TextMessage "assistant" "a", TextMessage "user" "u2"] (.error ())).length ≤ 3) := by
  refine ⟨rfl, by decide⟩

/-- C7 (witness): on the history `[system, user]` with a successful summary,
`do_compact` leaves at most 3 messages and the system message first; with a
failing send it returns the history unchanged. -/
theorem doCompact_bound_witness :
    ((doCompact [TextMessage "system" "s", TextMessage "user" "u"]
        (.ok ⟨TextMessage "assistant" "sum", "stop", ⟨0, 0, 0⟩⟩)).length ≤ 3
      ∧ (doCompact [TextMessage "system" "s", TextMessage "user" "u"]
        (.ok ⟨TextMessage "assistant" "sum", "stop", ⟨0, 0, 0⟩⟩))[0]?
          = some (TextMessage "system" "s"))
    ∧ doCompact [TextMessage "system" "s", TextMessage "user" "u"] (.error ())
        = [TextMessage "system" "s", TextMessage "user" "u"] :=
  ⟨(doCompact_bound (TextMessage "system" "s") [TextMessage "user" "u"]
      (.ok ⟨TextMessage "assistant" "sum", "stop", ⟨0, 0, 0⟩⟩)).1
      ⟨TextMessage "assistant" "sum", "stop", ⟨0, 0, 0⟩⟩ rfl,
   (doCompact_bound (TextMessage "system" "s") [TextMessage "user" "u"] (.error ())).2 () rfl⟩

/-! ## Deferred confirmation (`agent.handleConfirmation` + `tools.editTool`,
src/agent/agent.go and src/tools/edit.go)

A handler returns either a tool-result string, a plain error (surfaced to the
model as `"Error: …"`), or a `NeedsConfirmation` carrying an `execute`
closure.  The closure acts on the explicit file system.  `editTool` reads the
file, requires a unique match of `old_str`, and defers the write into the
closure; the path has already passed `ValidatePath` (§C1). -/

/-- `tools.NeedsConfirmation`: preview data plus the deferred side effect. -/
structure NeedsConfirmation where
  tool : String
  path : String
  preview : String
  newContent : String
  execute : Disk → Except String String × Disk

/-- A Go tool-handler error: a recoverable message or a confirmation request. -/
inductive ToolErr where
  | needsConfirmation (c : NeedsConfirmation)
  | msg (e : String)

/-- Fuelled scanner for Go `strings.Count`: each step consumes at least one
character of the remaining text, so `length + 1` fuel never runs out. -/
def countOccurGo (sub : List Char) : Nat → List Char → Nat
  | 0, _ => 0
  | _ + 1, [] => if sub = [] then 1 else 0
  | fuel + 1, c :: rest =>
    if sub.isPrefixOf (c :: rest) ∧ sub ≠ [] then
      1 + countOccurGo sub fuel (List.drop (sub.length - 1) rest)
    else countOccurGo sub fuel rest

/-- Go `strings.Count` (non-overlapping occurrences) on character lists. -/
def countOccur (sub s : List Char) : Nat :=
  countOccurGo sub (s.length + 1) s

/-- Go `strings.Replace(s, sub, rep, 1)` on character lists. -/
def replaceFirst (sub rep : List Char) : List Char → List Char
  | [] => []
  | c :: rest =>
    if sub.isPrefixOf (c :: rest) ∧ sub ≠ [] then
      rep ++ List.drop (sub.length - 1) rest
    else c :: replaceFirst sub rep rest

/-- `tools.editTool`'s input record (already JSON-parsed). -/
structure EditInput where
  path : String
  oldStr : String
  newStr : String

/-- `tools.editTool` from src/tools/edit.go: read the file, demand exactly one
match of `old_str`, and return a `NeedsConfirmation` whose closure performs
the write (its on-disk effect is the point update established for
`AtomicWrite` in C6). -/
def editTool (input : EditInput) (d : Disk) : Except ToolErr String :=
  if input.path = "" then .error (.msg "path is required")
  else if input.oldStr = "" then .error (.msg "old_str is required")
  else
    match d input.path with
    | none => .error (.msg "read file")
    | some content =>
      let count := countOccur input.oldStr.data content.data
      if count = 0 then .error (.msg "no match found for old_str")
      else if count > 1 then .error (.msg "old_str matches multiple times")
      else
        let newContent := String.mk (replaceFirst input.oldStr.data input.newStr.data content.data)
        .error (.needsConfirmation
          { tool := "edit", path := input.path, preview := content, newContent := newContent,
            execute := fun d' =>
              match d' input.path with
              | none => (.error "stat file", d')
              | some _ =>
                (.ok ("Successfully edited " ++ input.path),
                  setDisk d' input.path (some newContent)) })

/-- `agent.handleConfirmation`: on denial, return the literal denial string
without capturing pre-state or invoking the closure; on approval, run the
closure and translate its error. -/
def handleConfirmation (approved : Bool) (c : NeedsConfirmation) (d : Disk) : String × Disk :=
  if ¬ approved then ("User denied the operation.", d)
  else
    match c.execute d with
    | (.ok res, d') => (res, d')
    | (.error e, d') => ("Error: " ++ e, d')

/-- One sequential step of `agent.executeToolCalls`: the recorded tool result
for a call whose handler returned `res`, under the user decision `approved`. -/
def dispatchSeqOne (approved : Bool) (res : Except ToolErr String) (d : Disk) : String × Disk :=
  match res with
  | .ok out => (out, d)
  | .error (.needsConfirmation c) => handleConfirmation approved c d
  | .error (.msg e) => ("Error: " ++ e, d)

/-- C8: when the user denies a `NeedsConfirmation` (from write, edit or bash),
the recorded tool result is exactly `"User denied the operation."`, the carried
`execute` closure is never invoked (the equation holds for EVERY closure), and
the file system is unchanged; in particular this holds for whatever
confirmation `editTool` produced. -/
theorem confirmation_denied (inp : EditInput) (d : Disk) :
    (∀ c : NeedsConfirmation, editTool inp d = .error (.needsConfirmation c) →
      dispatchSeqOne false (editTool inp d) d = ("User denied the operation.", d))
    ∧ (∀ (c' : NeedsConfirmation) (d' : Disk),
        dispatchSeqOne false (.error (.needsConfirmation c')) d'
          = ("User denied the operation.", d')) := by
  constructor
  · intro c hc
    rw [hc]
    rfl
  · intro c' d'
    rfl

/-- C8 (witness): denying the edit `hello → hi` on `a.txt` containing
`"hello world"` records the literal denial string and leaves the disk
untouched. -/
theorem confirmation_denied_witness :
    dispatchSeqOne false
      (editTool ⟨"a.txt", "hello", "hi"⟩
        (fun p => if p = "a.txt" then some "hello world" else none))
      (fun p => if p = "a.txt" then some "hello world" else none)
      = ("User denied the operation.",
         fun p => if p = "a.txt" then some "hello world" else none) :=
  (confirmation_denied ⟨"a.txt", "hello", "hi"⟩
    (fun p => if p = "a.txt" then some "hello world" else none)).1 _ rfl

/-! ## Cancellation during tool dispatch (`agent.Run`, src/agent/agent.go)

When the operation context is cancelled during `executeToolCalls`, the loop
walks the collected results and appends a tool-role message for each — but
only when `r.output != ""` — then returns the distinguished `context.Canceled`
outcome. -/

/-- `agent.toolResult`. -/
structure ToolRes where
  id : String
  output : String
deriving DecidableEq, Repr

/-- How a turn of `agent.Run` ends. -/
inductive RunOutcome where
  | cancelled
  | finished
  | failed (e : String)
deriving DecidableEq, Repr

/-- The `for _, r := range results { if r.output != "" { append } }` loop of
the cancellation branch in `agent.Run`. -/
def cancelAppend (msgs : List Message) (results : List ToolRes) : List Message :=
  results.foldl
    (fun acc r => if r.output ≠ "" then acc ++ [ToolResultMessage r.id r.output] else acc)
    msgs

/-- The cancellation branch of `agent.Run`: record results, return
`context.Canceled`. -/
def runCancelBranch (msgs : List Message) (results : List ToolRes) :
    List Message × RunOutcome :=
  (cancelAppend msgs results, RunOutcome.cancelled)

theorem cancelAppend_eq_filter (results : List ToolRes) :
    ∀ msgs : List Message, cancelAppend msgs results
      = msgs ++ (results.filter (fun r => r.output ≠ "")).map
          (fun r => ToolResultMessage r.id r.output) := by
  induction results with
  | nil => intro msgs; simp [cancelAppend]
  | cons r rs ih =>
    intro msgs
    simp only [cancelAppend, List.foldl_cons] at ih ⊢
    by_cases hr : r.output = ""
    · rw [if_neg (by simp [hr]), ih msgs, List.filter_cons]
      simp [hr]
    · rw [if_pos hr, ih (msgs ++ [ToolResultMessage r.id r.output]), List.filter_cons]
      simp [hr]

/-- C9 (amended): on cancellation during tool dispatch the turn returns the
distinguished cancellation outcome and appends, in order, a tool-role message
with the matching id for every collected result whose output is NON-empty; a
collected result whose output is the (legitimate) empty string is dropped —
see the counterexample. -/
theorem cancel_appends_results (msgs : List Message) (results : List ToolRes) :
    (runCancelBranch msgs results).2 = RunOutcome.cancelled
    ∧ (runCancelBranch msgs results).1
        = msgs ++ (results.filter (fun r => r.output ≠ "")).map
            (fun r => ToolResultMessage r.id r.output) :=
  ⟨rfl, cancelAppend_eq_filter results msgs⟩

/-- C9 (counterexample): a collected result with the legitimate empty-string
output and id `"call-1"` is NOT appended: the cancellation branch leaves the
history empty, where the claim requires a tool-role message with id
`"call-1"`. -/
theorem cancel_drops_empty_output :
    runCancelBranch [] [⟨"call-1", ""⟩] = ([], RunOutcome.cancelled)
    ∧ ((runCancelBranch [] [⟨"call-1", ""⟩]).1.length = 0) :=
  ⟨rfl, rfl⟩

/-! ## Checkpoint and rewind (`agent.CreateCheckpoint` / `RewindCode` /
`RewindAll`, src/agent/context.go)

The agent state carries the history, the checkpoint list, the file-originals
map (pre-session snapshots, an association list in first-capture order) and
the file system.  A session between two checkpoints is a list of steps:
appending a message, a confirmed write/edit (which first captures the
pre-session state of the path, as `handleConfirmation` does), or creating a
further checkpoint.  Byte-level preview truncation (`preview[:100]`) is
modelled as `String.take`. -/

/-- `agent.FileSnapshot`; a Go nil `Content` slice is `""` with
`existed = false`. -/
structure FileSnapshot where
  existed : Bool
  content : Bytes
deriving DecidableEq, Repr

/-- The recorded disk state of a snapshot: absent when the file did not
exist. -/
def snapOpt (snap : FileSnapshot) : Option Bytes :=
  if snap.existed then some snap.content else none

/-- `agent.Checkpoint`; `files` maps each tracked path to its bytes at
checkpoint time (`none` = did not exist, the Go nil entry). -/
structure Checkpoint where
  turn : Nat
  preview : String
  msgIndex : Nat
  files : List (Path × Option Bytes)
deriving DecidableEq, Repr

/-- The fields of `agent.Agent` that checkpointing touches. -/
structure AgentState where
  messages : List Message
  checkpoints : List Checkpoint
  fileOriginals : List (Path × FileSnapshot)
  disk : Disk
  lastTokensUsed : Nat

/-- Association-list lookup (Go map read) keyed by path. -/
def alookupP {α : Type} (p : Path) : List (Path × α) → Option α
  | [] => none
  | (q, v) :: rest => if q = p then some v else alookupP p rest

/-- `agent.CreateCheckpoint`: snapshot the current disk bytes of every
tracked path and append the checkpoint. -/
def CreateCheckpoint (u : String) (s : AgentState) : AgentState :=
  { s with checkpoints := s.checkpoints ++
      [{ turn := s.checkpoints.length + 1,
         preview := u.take 100,
         msgIndex := s.messages.length,
         files := s.fileOriginals.map (fun e => (e.1, s.disk e.1)) }] }

/-- `agent.captureFileBeforeModification`: record the pre-session state of a
path the first time it is about to be modified; later calls are no-ops. -/
def captureFileBeforeModification (p : Path) (s : AgentState) : AgentState :=
  if (alookupP p s.fileOriginals).isSome then s
  else
    match s.disk p with
    | none => { s with fileOriginals := s.fileOriginals ++ [(p, ⟨false, ""⟩)] }
    | some data => { s with fileOriginals := s.fileOriginals ++ [(p, ⟨true, data⟩)] }

/-- One observable step of a session turn. -/
inductive SessionStep where
  | appendMsg (m : Message)
  | sessionWrite (p : Path) (b : Bytes)
  | checkpoint (u : String)

/-- Step semantics: a confirmed write captures the pre-session state first
(§4.5 / `handleConfirmation`) and then writes the bytes. -/
def runStep (s : AgentState) : SessionStep → AgentState
  | .appendMsg m => { s with messages := s.messages ++ [m] }
  | .sessionWrite p b =>
    let s' := captureFileBeforeModification p s
    { s' with disk := setDisk s'.disk p (some b) }
  | .checkpoint u => CreateCheckpoint u s

/-- A whole session fragment. -/
def runSteps (s : AgentState) (steps : List SessionStep) : AgentState :=
  steps.foldl runStep s

/-- `agent.RewindConversation`: truncate messages to the checkpoint's
`MsgIndex`, drop the checkpoint and its successors, reset the token count;
out-of-range turns are ignored. -/
def RewindConversation (turn : Nat) (s : AgentState) : AgentState :=
  if h : 1 ≤ turn ∧ turn ≤ s.checkpoints.length then
    { s with
      messages := s.messages.take (s.checkpoints.get ⟨turn - 1, by omega⟩).msgIndex,
      checkpoints := s.checkpoints.take (turn - 1),
      lastTokensUsed := 0 }
  else s

/-- The first restore loop of `agent.RewindCode`: write every checkpointed
path back (`none` = `os.Remove`). -/
def restoreFromCheckpoint (files : List (Path × Option Bytes)) (d : Disk) : Disk :=
  files.foldl (fun acc e => setDisk acc e.1 e.2) d

/-- The second restore loop of `agent.RewindCode`: every tracked path NOT in
the checkpoint (first modified after it) goes back to its pre-session
state. -/
def restoreOriginals (cpFiles : List (Path × Option Bytes))
    (fo : List (Path × FileSnapshot)) (d : Disk) : Disk :=
  fo.foldl
    (fun acc e =>
      if (alookupP e.1 cpFiles).isSome then acc
      else if e.2.existed then setDisk acc e.1 (some e.2.content)
      else setDisk acc e.1 none)
    d

/-- `agent.RewindCode`: restore checkpointed paths, restore later-modified
paths to pre-session state, and trim the originals map to the checkpoint's
paths. -/
def RewindCode (turn : Nat) (s : AgentState) : Except String AgentState :=
  if h : 1 ≤ turn ∧ turn ≤ s.checkpoints.length then
    let cp := s.checkpoints.get ⟨turn - 1, by omega⟩
    .ok { s with
      disk := restoreOriginals cp.files s.fileOriginals
        (restoreFromCheckpoint cp.files s.disk),
      fileOriginals := cp.files.filterMap
        (fun e => (alookupP e.1 s.fileOriginals).map (fun snap => (e.1, snap))) }
  else .error "invalid checkpoint turn"

/-- `agent.RewindAll`: code first, then conversation. -/
def RewindAll (turn : Nat) (s : AgentState) : Except String AgentState :=
  (RewindCode turn s).map (RewindConversation turn)

/-! Lookup lemmas. -/

theorem alookupP_append {α : Type} (p : Path) (l1 l2 : List (Path × α)) :
    alookupP p (l1 ++ l2)
      = match alookupP p l1 with
        | some v => some v
        | none => alookupP p l2 := by
  induction l1 with
  | nil => simp [alookupP]
  | cons e rest ih =>
    by_cases he : e.1 = p
    · obtain ⟨q, v⟩ := e
      simp_all [alookupP]
    · obtain ⟨q, v⟩ := e
      simp_all [alookupP]

theorem alookupP_eq_none_iff {α : Type} (p : Path) (l : List (Path × α)) :
    alookupP p l = none ↔ ∀ e ∈ l, e.1 ≠ p := by
  induction l with
  | nil => simp [alookupP]
  | cons e rest ih =>
    obtain ⟨q, v⟩ := e
    by_cases hq : q = p
    · subst hq
      simp [alookupP]
    · simp [alookupP, hq, ih]

theorem alookupP_map_snd {α β : Type} (p : Path) (f : Path → β) (l : List (Path × α)) :
    alookupP p (l.map (fun e => (e.1, f e.1)))
      = if (alookupP p l).isSome then some (f p) else none := by
  induction l with
  | nil => simp [alookupP]
  | cons e rest ih =>
    obtain ⟨q, v⟩ := e
    by_cases hq : q = p
    · subst hq
      simp [alookupP]
    · simp [alookupP, hq, ih]

/-! Restore-fold lemmas: a path untouched by a fold keeps its value; a path
all of whose entries agree on one value ends at that value. -/

theorem restoreFromCheckpoint_cons (e : Path × Option Bytes)
    (fs : List (Path × Option Bytes)) (d : Disk) :
    restoreFromCheckpoint (e :: fs) d = restoreFromCheckpoint fs (setDisk d e.1 e.2) := rfl

theorem restoreOriginals_cons (cpFiles : List (Path × Option Bytes))
    (e : Path × FileSnapshot) (fs : List (Path × FileSnapshot)) (d : Disk) :
    restoreOriginals cpFiles (e :: fs) d
      = restoreOriginals cpFiles fs
          (if (alookupP e.1 cpFiles).isSome then d
           else if e.2.existed then setDisk d e.1 (some e.2.content)
           else setDisk d e.1 none) := rfl

theorem setDisk_ne (d : Disk) (p q : Path) (v : Option Bytes) (h : p ≠ q) :
    setDisk d p v q = d q := by
  have hqp : ¬ q = p := fun hc => h hc.symm
  simp [setDisk, hqp]

theorem setDisk_self (d : Disk) (p : Path) (v : Option Bytes) :
    setDisk d p v p = v := by
  simp [setDisk]

theorem restoreFromCheckpoint_notMem (files : List (Path × Option Bytes)) :
    ∀ (d : Disk) (q : Path), alookupP q files = none →
    restoreFromCheckpoint files d q = d q := by
  induction files with
  | nil => intro d q _; rfl
  | cons e fs ih =>
    intro d q h
    have hne : e.1 ≠ q := ((alookupP_eq_none_iff q _).mp h) e (List.mem_cons_self _ _)
    have hfs : alookupP q fs = none := by
      obtain ⟨p0, v0⟩ := e
      simp only [alookupP, if_neg hne] at h
      exact h
    rw [restoreFromCheckpoint_cons, ih _ q hfs, setDisk_ne _ _ _ _ hne]

theorem restoreFromCheckpoint_uniform (files : List (Path × Option Bytes)) :
    ∀ (d : Disk) (q : Path) (v : Option Bytes), alookupP q files ≠ none →
    (∀ e ∈ files, e.1 = q → e.2 = v) →
    restoreFromCheckpoint files d q = v := by
  induction files with
  | nil => intro d q v h _; simp [alookupP] at h
  | cons e fs ih =>
    intro d q v h hval
    rw [restoreFromCheckpoint_cons]
    by_cases hfs : alookupP q fs = none
    · -- no later entry with key q: the head must be it
      have he1 : e.1 = q := by
        by_contra hne
        obtain ⟨p0, v0⟩ := e
        simp only [alookupP, if_neg hne] at h
        exact h hfs
      rw [restoreFromCheckpoint_notMem fs _ q hfs, he1, setDisk_self]
      exact hval e (List.mem_cons_self _ _) he1
    · exact ih _ q v hfs (fun x hx => hval x (List.mem_cons_of_mem _ hx))

theorem restoreOriginals_skip (cpFiles : List (Path × Option Bytes))
    (fo : List (Path × FileSnapshot)) :
    ∀ (d : Disk) (q : Path), (alookupP q cpFiles).isSome →
    restoreOriginals cpFiles fo d q = d q := by
  induction fo with
  | nil => intro d q _; rfl
  | cons e fs ih =>
    intro d q h
    rw [restoreOriginals_cons]
    by_cases hin : (alookupP e.1 cpFiles).isSome
    · rw [if_pos hin]
      exact ih d q h
    · have hne : e.1 ≠ q := fun hc => hin (hc ▸ h)
      rw [if_neg hin]
      by_cases hex : e.2.existed
      · rw [if_pos hex, ih _ q h, setDisk_ne _ _ _ _ hne]
      · rw [if_neg hex, ih _ q h, setDisk_ne _ _ _ _ hne]

theorem restoreOriginals_notMem (cpFiles : List (Path × Option Bytes))
    (fo : List (Path × FileSnapshot)) :
    ∀ (d : Disk) (q : Path), (∀ e ∈ fo, e.1 ≠ q) →
    restoreOriginals cpFiles fo d q = d q := by
  induction fo with
  | nil => intro d q _; rfl
  | cons e fs ih =>
    intro d q h
    have hne : e.1 ≠ q := h e (List.mem_cons_self _ _)
    have htail : ∀ x ∈ fs, x.1 ≠ q := fun x hx => h x (List.mem_cons_of_mem _ hx)
    rw [restoreOriginals_cons]
    by_cases hin : (alookupP e.1 cpFiles).isSome
    · rw [if_pos hin]
      exact ih _ q htail
    · rw [if_neg hin]
      by_cases hex : e.2.existed
      · rw [if_pos hex, ih _ q htail, setDisk_ne _ _ _ _ hne]
      · rw [if_neg hex, ih _ q htail, setDisk_ne _ _ _ _ hne]

theorem restoreOriginals_uniform (cpFiles : List (Path × Option Bytes))
    (fo : List (Path × FileSnapshot)) :
    ∀ (d : Disk) (q : Path) (v : Option Bytes), alookupP q cpFiles = none →
    (∀ e ∈ fo, e.1 = q → snapOpt e.2 = v) →
    (∃ e ∈ fo, e.1 = q) →
    restoreOriginals cpFiles fo d q = v := by
  induction fo with
  | nil =>
    intro d q v _ _ hex
    simp at hex
  | cons e fs ih =>
    intro d q v hcp hval hex
    rw [restoreOriginals_cons]
    by_cases he1 : e.1 = q
    · have hskip : ¬ (alookupP e.1 cpFiles).isSome = true := by
        rw [he1, hcp]; simp
      rw [if_neg hskip]
      have hv : snapOpt e.2 = v := hval e (List.mem_cons_self _ _) he1
      have hstep : (if e.2.existed then setDisk d e.1 (some e.2.content)
          else setDisk d e.1 none) q = v := by
        by_cases hex2 : e.2.existed
        · rw [if_pos hex2, he1, setDisk_self, ← hv]
          simp [snapOpt, hex2]
        · rw [if_neg hex2, he1, setDisk_self, ← hv]
          simp [snapOpt, hex2]
      by_cases hfs : ∃ x ∈ fs, x.1 = q
      · exact ih _ q v hcp (fun x hx => hval x (List.mem_cons_of_mem _ hx)) hfs
      · have hnone : ∀ x ∈ fs, x.1 ≠ q := fun x hx hc => hfs ⟨x, hx, hc⟩
        rw [restoreOriginals_notMem cpFiles fs _ q hnone]
        exact hstep
    · rcases hex with ⟨x, hx, hxq⟩
      rcases List.mem_cons.mp hx with rfl | hx'
      · exact absurd hxq he1
      · exact ih _ q v hcp (fun y hy => hval y (List.mem_cons_of_mem _ hy)) ⟨x, hx', hxq⟩

/-- What stays true of the agent state across session steps taken after the
checkpoint captured in `s1`: the history and checkpoint list only grow, every
originals entry added later records the disk state at `s1` (the path was
untouched before its capture), and untracked paths still hold their `s1`
bytes. -/
def SessionInv (s1 s : AgentState) : Prop :=
  s1.messages.IsPrefix s.messages
  ∧ s1.checkpoints.IsPrefix s.checkpoints
  ∧ (∃ newE, s.fileOriginals = s1.fileOriginals ++ newE
      ∧ ∀ e ∈ newE, alookupP e.1 s1.fileOriginals = none ∧ snapOpt e.2 = s1.disk e.1)
  ∧ ∀ p, alookupP p s.fileOriginals = none → s.disk p = s1.disk p

theorem sessionInv_init (s1 : AgentState) : SessionInv s1 s1 :=
  ⟨List.prefix_refl _, List.prefix_refl _, ⟨[], by simp, by simp⟩, fun _ _ => rfl⟩

theorem capture_messages (p : Path) (s : AgentState) :
    (captureFileBeforeModification p s).messages = s.messages := by
  unfold captureFileBeforeModification
  split
  · rfl
  · split <;> rfl

theorem capture_checkpoints (p : Path) (s : AgentState) :
    (captureFileBeforeModification p s).checkpoints = s.checkpoints := by
  unfold captureFileBeforeModification
  split
  · rfl
  · split <;> rfl

theorem capture_disk (p : Path) (s : AgentState) :
    (captureFileBeforeModification p s).disk = s.disk := by
  unfold captureFileBeforeModification
  split
  · rfl
  · split <;> rfl

theorem capture_fo_tracked (p : Path) (s : AgentState)
    (h : (alookupP p s.fileOriginals).isSome) :
    (captureFileBeforeModification p s).fileOriginals = s.fileOriginals := by
  unfold captureFileBeforeModification
  rw [if_pos h]

theorem capture_fo_fresh (p : Path) (s : AgentState)
    (h : ¬ (alookupP p s.fileOriginals).isSome) :
    (captureFileBeforeModification p s).fileOriginals
      = s.fileOriginals ++
        [(p, match s.disk p with
             | none => (⟨false, ""⟩ : FileSnapshot)
             | some data => ⟨true, data⟩)] := by
  unfold captureFileBeforeModification
  rw [if_neg h]
  rcases hdp : s.disk p with _ | data <;> simp [hdp]

theorem runStep_write_eq (p : Path) (b : Bytes) (s : AgentState) :
    runStep s (SessionStep.sessionWrite p b)
      = { s with fileOriginals := (captureFileBeforeModification p s).fileOriginals,
                 disk := setDisk s.disk p (some b) } := by
  show ({ captureFileBeforeModification p s with
    disk := setDisk (captureFileBeforeModification p s).disk p (some b) } : AgentState) = _
  rw [capture_disk]
  have h1 := capture_messages p s
  have h2 := capture_checkpoints p s
  rcases hcap : captureFileBeforeModification p s with ⟨ms, cs, fs, ds, ts⟩
  rw [hcap] at h1 h2
  have h5 : (captureFileBeforeModification p s).lastTokensUsed = s.lastTokensUsed := by
    unfold captureFileBeforeModification
    split
    · rfl
    · split <;> rfl
  rw [hcap] at h5
  simp only at h1 h2 h5
  simp [h1, h2, h5, hcap]

theorem sessionInv_step (s1 s : AgentState) (st : SessionStep) (h : SessionInv s1 s) :
    SessionInv s1 (runStep s st) := by
  obtain ⟨hm, hc, ⟨newE, hfo, hnew⟩, hd⟩ := h
  cases st with
  | appendMsg m =>
    exact ⟨hm.trans (List.prefix_append _ _), hc, ⟨newE, hfo, hnew⟩, hd⟩
  | checkpoint u =>
    exact ⟨hm, hc.trans (List.prefix_append _ _), ⟨newE, hfo, hnew⟩, hd⟩
  | sessionWrite p b =>
    rw [runStep_write_eq]
    by_cases hcap : (alookupP p s.fileOriginals).isSome
    · -- capture is a no-op; only the disk changes, at the tracked path p
      refine ⟨hm, hc, ⟨newE, by rw [capture_fo_tracked p s hcap]; exact hfo, hnew⟩, ?_⟩
      intro q hq
      rw [capture_fo_tracked p s hcap] at hq
      have hqp : p ≠ q := by
        intro hc2
        rw [← hc2] at hq
        rw [hq] at hcap
        simp at hcap
      show setDisk s.disk p (some b) q = s1.disk q
      rw [setDisk_ne _ _ _ _ hqp]
      exact hd q hq
    · -- first modification of p
      have hnone : alookupP p s.fileOriginals = none :=
        Option.not_isSome_iff_eq_none.mp hcap
      have hs1none : alookupP p s1.fileOriginals = none := by
        rw [hfo, alookupP_append] at hnone
        rcases hl : alookupP p s1.fileOriginals with _ | v
        · rfl
        · rw [hl] at hnone
          simp at hnone
      have hdisk1 : s.disk p = s1.disk p := hd p hnone
      refine ⟨hm, hc, ?_, ?_⟩
      · refine ⟨newE ++ [(p, match s.disk p with
            | none => (⟨false, ""⟩ : FileSnapshot)
            | some data => ⟨true, data⟩)], ?_, ?_⟩
        · rw [capture_fo_fresh p s hcap, hfo, List.append_assoc]
        · intro e he
          rcases List.mem_append.mp he with h1 | h2
          · exact hnew e h1
          · rcases List.mem_singleton.mp h2 with rfl
            refine ⟨hs1none, ?_⟩
            rw [← hdisk1]
            rcases hdp : s.disk p with _ | data <;> simp [hdp, snapOpt]
      · intro q hq
        rw [capture_fo_fresh p s hcap, alookupP_append] at hq
        have hqs : alookupP q s.fileOriginals = none ∧ p ≠ q := by
          rcases hl : alookupP q s.fileOriginals with _ | v
          · rw [hl] at hq
            simp only [alookupP] at hq
            refine ⟨rfl, ?_⟩
            intro hpq
            rw [if_pos hpq] at hq
            exact Option.noConfusion hq
          · rw [hl] at hq
            exact Option.noConfusion hq
        show setDisk s.disk p (some b) q = s1.disk q
        rw [setDisk_ne _ _ _ _ hqs.2]
        exact hd q hqs.1

theorem sessionInv_runSteps (s1 : AgentState) (steps : List SessionStep) :
    ∀ s, SessionInv s1 s → SessionInv s1 (runSteps s steps) := by
  induction steps with
  | nil => intro s h; exact h
  | cons st rest ih =>
    intro s h
    exact ih _ (sessionInv_step s1 s st h)

theorem RewindCode_ok (turn : Nat) (s : AgentState)
    (h : 1 ≤ turn ∧ turn ≤ s.checkpoints.length) :
    RewindCode turn s = .ok { s with
      disk := restoreOriginals (s.checkpoints.get ⟨turn - 1, by omega⟩).files s.fileOriginals
        (restoreFromCheckpoint (s.checkpoints.get ⟨turn - 1, by omega⟩).files s.disk),
      fileOriginals := (s.checkpoints.get ⟨turn - 1, by omega⟩).files.filterMap
        (fun e => (alookupP e.1 s.fileOriginals).map (fun snap => (e.1, snap))) } := by
  rw [RewindCode, dif_pos h]

theorem RewindConversation_eq (turn : Nat) (s : AgentState)
    (h : 1 ≤ turn ∧ turn ≤ s.checkpoints.length) :
    RewindConversation turn s = { s with
      messages := s.messages.take (s.checkpoints.get ⟨turn - 1, by omega⟩).msgIndex,
      checkpoints := s.checkpoints.take (turn - 1),
      lastTokensUsed := 0 } := by
  rw [RewindConversation, dif_pos h]

/-- C2: full checkpoint round-trip.  Start anywhere, create checkpoint `t1`,
run any session fragment (message appends, confirmed writes that capture
pre-state first, later checkpoints `t2 > t1`): `rewind_all(t1)` succeeds,
truncates the history back to the `msg_index` recorded at `t1` (i.e. to the
messages present when `t1` was created), and restores the ENTIRE file system
to its state at checkpoint `t1` — in particular every file first created
after `t1` is removed from disk. -/
theorem rewindAll_roundtrip (s0 : AgentState) (u : String) (steps : List SessionStep)
    (_hlater : ∃ v, SessionStep.checkpoint v ∈ steps) :
    ∃ s3,
      RewindAll (s0.checkpoints.length + 1) (runSteps (CreateCheckpoint u s0) steps)
        = .ok s3
      ∧ s3.messages = s0.messages
      ∧ (∀ p, s3.disk p = s0.disk p)
      ∧ (∀ p, s0.disk p = none → s3.disk p = none) := by
  classical
  obtain ⟨hm, hc, ⟨newE, hfo, hnew⟩, hd⟩ :=
    sessionInv_runSteps (CreateCheckpoint u s0) steps (CreateCheckpoint u s0)
      (sessionInv_init (CreateCheckpoint u s0))
  obtain ⟨tl, htl⟩ := hc
  have hs1cp : (CreateCheckpoint u s0).checkpoints
      = s0.checkpoints ++
        [{ turn := s0.checkpoints.length + 1,
           preview := u.take 100,
           msgIndex := s0.messages.length,
           files := s0.fileOriginals.map (fun e => (e.1, s0.disk e.1)) }] := rfl
  have hlen2 : s0.checkpoints.length + 1
      ≤ (runSteps (CreateCheckpoint u s0) steps).checkpoints.length := by
    rw [← htl, hs1cp]
    simp
  have hguard : 1 ≤ s0.checkpoints.length + 1
      ∧ s0.checkpoints.length + 1
        ≤ (runSteps (CreateCheckpoint u s0) steps).checkpoints.length :=
    ⟨by omega, hlen2⟩
  -- the checkpoint read back by the rewind is the one created at t1
  have hget : ∀ hpf : s0.checkpoints.length + 1 - 1
        < (runSteps (CreateCheckpoint u s0) steps).checkpoints.length,
      (runSteps (CreateCheckpoint u s0) steps).checkpoints.get
          ⟨s0.checkpoints.length + 1 - 1, hpf⟩
        = { turn := s0.checkpoints.length + 1,
            preview := u.take 100,
            msgIndex := s0.messages.length,
            files := s0.fileOriginals.map (fun e => (e.1, s0.disk e.1)) } := by
    intro hpf
    have hopt : (runSteps (CreateCheckpoint u s0) steps).checkpoints[s0.checkpoints.length]?
        = some { turn := s0.checkpoints.length + 1,
                 preview := u.take 100,
                 msgIndex := s0.messages.length,
                 files := s0.fileOriginals.map (fun e => (e.1, s0.disk e.1)) } := by
      rw [← htl, hs1cp, List.append_assoc,
        List.getElem?_append_right (le_refl s0.checkpoints.length)]
      simp
    have hlt : s0.checkpoints.length
        < (runSteps (CreateCheckpoint u s0) steps).checkpoints.length := by omega
    rw [List.getElem?_eq_getElem hlt] at hopt
    have := Option.some.inj hopt
    rw [List.get_eq_getElem]
    exact this
  -- the rewound disk is exactly the disk at t1
  have hdisk : ∀ q,
      restoreOriginals (s0.fileOriginals.map (fun e => (e.1, s0.disk e.1)))
        (runSteps (CreateCheckpoint u s0) steps).fileOriginals
        (restoreFromCheckpoint (s0.fileOriginals.map (fun e => (e.1, s0.disk e.1)))
          (runSteps (CreateCheckpoint u s0) steps).disk) q
      = s0.disk q := by
    intro q
    by_cases hq : (alookupP q s0.fileOriginals).isSome
    · have hcpl : alookupP q (s0.fileOriginals.map (fun e => (e.1, s0.disk e.1)))
          = some (s0.disk q) := by
        rw [alookupP_map_snd, if_pos hq]
      have huniform : ∀ e ∈ s0.fileOriginals.map (fun e => (e.1, s0.disk e.1)),
          e.1 = q → e.2 = s0.disk q := by
        intro e he heq
        obtain ⟨x, _, hxe⟩ := List.mem_map.mp he
        rw [← hxe] at heq ⊢
        simp only at heq ⊢
        rw [heq]
      rw [restoreOriginals_skip _ _ _ q (by rw [hcpl]; rfl)]
      exact restoreFromCheckpoint_uniform _ _ q (s0.disk q) (by rw [hcpl]; simp) huniform
    · have hq0 : alookupP q s0.fileOriginals = none := Option.not_isSome_iff_eq_none.mp hq
      have hcpl : alookupP q (s0.fileOriginals.map (fun e => (e.1, s0.disk e.1))) = none := by
        rw [alookupP_map_snd, if_neg (by rw [hq0]; simp)]
      have h1 : restoreFromCheckpoint (s0.fileOriginals.map (fun e => (e.1, s0.disk e.1)))
          (runSteps (CreateCheckpoint u s0) steps).disk q
          = (runSteps (CreateCheckpoint u s0) steps).disk q :=
        restoreFromCheckpoint_notMem _ _ q hcpl
      by_cases hex : ∃ e ∈ (runSteps (CreateCheckpoint u s0) steps).fileOriginals, e.1 = q
      · have hval : ∀ e ∈ (runSteps (CreateCheckpoint u s0) steps).fileOriginals,
            e.1 = q → snapOpt e.2 = s0.disk q := by
          intro e he heq
          rw [hfo] at he
          rcases List.mem_append.mp he with hin1 | hin2
          · exact absurd heq ((alookupP_eq_none_iff q _).mp hq0 e hin1)
          · have hsnap := (hnew e hin2).2
            rw [heq] at hsnap
            exact hsnap
        exact restoreOriginals_uniform _ _ _ q (s0.disk q) hcpl hval hex
      · have hnone2 : ∀ e ∈ (runSteps (CreateCheckpoint u s0) steps).fileOriginals,
            e.1 ≠ q := fun e he heq => hex ⟨e, he, heq⟩
        rw [restoreOriginals_notMem _ _ _ q hnone2, h1]
        exact hd q ((alookupP_eq_none_iff q _).mpr hnone2)
  -- assemble the rewind
  rw [RewindAll, RewindCode_ok _ _ hguard]
  simp only [Except.map]
  rw [RewindConversation_eq]
  · refine ⟨_, rfl, ?_, ?_, ?_⟩
    · -- history truncation
      show (runSteps (CreateCheckpoint u s0) steps).messages.take
          ((runSteps (CreateCheckpoint u s0) steps).checkpoints.get
            ⟨s0.checkpoints.length + 1 - 1, by omega⟩).msgIndex
        = s0.messages
      rw [hget]
      obtain ⟨mt, hmt⟩ := hm
      rw [← hmt]
      exact List.take_left _ _
    · -- full disk restoration
      intro p
      show restoreOriginals
          ((runSteps (CreateCheckpoint u s0) steps).checkpoints.get
            ⟨s0.checkpoints.length + 1 - 1, by omega⟩).files
          (runSteps (CreateCheckpoint u s0) steps).fileOriginals
          (restoreFromCheckpoint
            ((runSteps (CreateCheckpoint u s0) steps).checkpoints.get
              ⟨s0.checkpoints.length + 1 - 1, by omega⟩).files
            (runSteps (CreateCheckpoint u s0) steps).disk) p
        = s0.disk p
      rw [hget]
      exact hdisk p
    · -- files created after t1 are gone
      intro p hp
      show restoreOriginals
          ((runSteps (CreateCheckpoint u s0) steps).checkpoints.get
            ⟨s0.checkpoints.length + 1 - 1, by omega⟩).files
          (runSteps (CreateCheckpoint u s0) steps).fileOriginals
          (restoreFromCheckpoint
            ((runSteps (CreateCheckpoint u s0) steps).checkpoints.get
              ⟨s0.checkpoints.length + 1 - 1, by omega⟩).files
            (runSteps (CreateCheckpoint u s0) steps).disk) p
        = none
      rw [hget]
      rw [hdisk p]
      exact hp
  · exact hguard

/-- C2 (witness): starting from a fresh agent with an empty disk, checkpoint
turn 1, create `new.go` (a confirmed write) and take checkpoint turn 2; then
`rewind_all(1)` succeeds, restores the single-message history, and leaves the
whole disk empty — in particular `new.go` is removed. -/
theorem rewindAll_roundtrip_witness :
    ∃ s3,
      RewindAll 1
          (runSteps
            (CreateCheckpoint "turn 1"
              ⟨[TextMessage "system" "s"], [], [], fun _ => none, 0⟩)
            [SessionStep.sessionWrite "new.go" "content", SessionStep.checkpoint "turn 2"])
        = .ok s3
      ∧ s3.messages = [TextMessage "system" "s"]
      ∧ (∀ p, s3.disk p = (fun _ => (none : Option Bytes)) p)
      ∧ (∀ p, (fun _ => (none : Option Bytes)) p = none → s3.disk p = none) :=
  rewindAll_roundtrip ⟨[TextMessage "system" "s"], [], [], fun _ => none, 0⟩ "turn 1"
    [SessionStep.sessionWrite "new.go" "content", SessionStep.checkpoint "turn 2"]
    ⟨"turn 2", by simp⟩

end Pilot
